import Mathlib

/-!
Verification development for the OCR pipeline of `ocr_processing.py`
(tesseractgui). The Python program is shallowly embedded:

* Python strings are modelled as lists of Unicode code points (`List ℕ`);
  `str.lower`, `str.strip`, `re` word tokenization and whole-word
  case-insensitive substitution are implemented on code points.
* Confidence scores (Python floats holding finite decimal values) are
  modelled as rationals (`ℚ`).
* Image buffers (`numpy` arrays) are modelled as a shape together with a
  pixel-intensity function.
* External collaborators (OpenCV primitives, the Tesseract engine, the
  spell-checking dictionary, the filesystem) are modelled as environment
  records of abstract functions; a fallible collaborator call is an
  `Option`/`Except` value, `none`/`error` standing for a raised exception.
* A Python function that may raise returns `Except`; a `try/except` block
  that swallows exceptions becomes `Option.getD`.
-/

namespace TesseractGui

/-! ### Code-point helpers (Python string primitives) -/

/-- Python `\w` word character, for the ASCII range relevant here:
letter, digit or underscore. -/
def isWordCode (n : ℕ) : Bool :=
  (decide (65 ≤ n) && decide (n ≤ 90)) || (decide (97 ≤ n) && decide (n ≤ 122)) ||
    (decide (48 ≤ n) && decide (n ≤ 57)) || decide (n = 95)

/-- Python `str.lower` on a single ASCII code point. -/
def lowerCode (n : ℕ) : ℕ := if 65 ≤ n ∧ n ≤ 90 then n + 32 else n

/-- Python whitespace (the characters stripped by `str.strip()`), ASCII range. -/
def isSpaceCode (n : ℕ) : Bool :=
  decide (n = 32) || decide (n = 9) || decide (n = 10) || decide (n = 13) ||
    decide (n = 11) || decide (n = 12)

/-- Python `str.strip()`: drop leading and trailing whitespace. -/
def trimCodes (s : List ℕ) : List ℕ :=
  ((s.dropWhile isSpaceCode).reverse.dropWhile isSpaceCode).reverse

/-- View a Lean string literal as the list of its code points (used to write
concrete Python strings in examples). -/
def strCodes (s : String) : List ℕ := s.data.map Char.toNat

theorem isWordCode_iff (n : ℕ) :
    isWordCode n = true ↔
      (65 ≤ n ∧ n ≤ 90) ∨ (97 ≤ n ∧ n ≤ 122) ∨ (48 ≤ n ∧ n ≤ 57) ∨ n = 95 := by
  simp [isWordCode]
  tauto

theorem isWordCode_lowerCode (n : ℕ) : isWordCode (lowerCode n) = isWordCode n := by
  unfold lowerCode
  split
  · rename_i h
    have h1 : isWordCode (n + 32) = true := by rw [isWordCode_iff]; omega
    have h2 : isWordCode n = true := by rw [isWordCode_iff]; omega
    rw [h1, h2]
  · rfl

theorem lowerCode_ne_of_word_nonword {a b : ℕ} (ha : isWordCode a = true)
    (hb : isWordCode b = false) : lowerCode b ≠ lowerCode a := by
  intro h
  have hA := isWordCode_lowerCode a
  have hB := isWordCode_lowerCode b
  rw [h, hA] at hB
  rw [ha] at hB
  rw [hb] at hB
  exact Bool.noConfusion hB

/-! ### Recognition Aggregator: confidence filtering (`perform_ocr`, lines 272–294)

Tesseract's `image_to_data` output is a pair of parallel arrays `conf` and
`text`, read per index inside a `try` block.  A `RawBox` is the view of one
index: `none` in a field models the corresponding read raising
(`ValueError`/`TypeError`/`KeyError`/`IndexError`). -/

/-- One index of the Tesseract structured output. -/
structure RawBox where
  confRaw : Option ℚ
  textRaw : Option (List ℕ)

/-- Constant `MIN_OCR_CONFIDENCE = 35` from the source. -/
def MIN_OCR_CONFIDENCE : ℚ := 35

/-- The aggregation loop of `perform_ocr` (lines 278–291): per index, read
confidence and text; on a read failure skip the index; keep the stripped
text when `confidence_val >= MIN_OCR_CONFIDENCE and text`. -/
def processBoxes : List RawBox → List (List ℕ)
  | [] => []
  | b :: rest =>
    match b.confRaw, b.textRaw with
    | some conf, some traw =>
      let t := trimCodes traw
      if MIN_OCR_CONFIDENCE ≤ conf ∧ t ≠ [] then t :: processBoxes rest
      else processBoxes rest
    | _, _ => processBoxes rest

/-- Aggregation `" ".join(full_text_list).strip()` (line 294). -/
def rawExtractedText (boxes : List RawBox) : List ℕ :=
  trimCodes (List.intercalate [32] (processBoxes boxes))

/-- Spec-side keep predicate: a detection is kept iff its confidence is at
least 35 and its trimmed text is non-empty. -/
def keepDetection (d : List ℕ × ℚ) : Bool :=
  decide ((35 : ℚ) ≤ d.2 ∧ trimCodes d.1 ≠ [])

/-- Spec-side aggregation: filter by `keepDetection`, join the kept trimmed
tokens with single spaces in order, and trim the result. -/
def aggregateSpec (ds : List (List ℕ × ℚ)) : List ℕ :=
  trimCodes (List.intercalate [32] ((ds.filter keepDetection).map (fun d => trimCodes d.1)))

/-- Well-formed engine output: every index has readable confidence and text. -/
def wfBoxes (ds : List (List ℕ × ℚ)) : List RawBox :=
  ds.map (fun d => ⟨some d.2, some d.1⟩)

theorem processBoxes_wf (ds : List (List ℕ × ℚ)) :
    processBoxes (wfBoxes ds) = (ds.filter keepDetection).map (fun d => trimCodes d.1) := by
  induction ds with
  | nil => rfl
  | cons d ds ih =>
    by_cases h : (35 : ℚ) ≤ d.2 ∧ trimCodes d.1 ≠ [] <;>
      simp [wfBoxes, processBoxes, List.filter_cons, keepDetection, MIN_OCR_CONFIDENCE, h,
        ih.symm]

/-- A detection index is well formed when both its reads succeed. -/
def isWellFormedBox (b : RawBox) : Bool := b.confRaw.isSome && b.textRaw.isSome

theorem processBoxes_filter_wf (boxes : List RawBox) :
    processBoxes boxes = processBoxes (boxes.filter isWellFormedBox) := by
  induction boxes with
  | nil => rfl
  | cons b rest ih =>
    cases hc : b.confRaw <;> cases ht : b.textRaw <;>
      simp [processBoxes, isWellFormedBox, List.filter_cons, hc, ht, ih.symm]

/-- C1: For every list of engine detections, the aggregated raw text keeps a
detection iff its confidence is ≥ 35 (boundary inclusive) and its trimmed
text is non-empty, joins the kept tokens with single spaces in engine order
and trims the ends; in particular the detections
`[("Hello", 90), ("xz", 20), ("World", 60)]` aggregate to `"Hello World"`. -/
theorem aggregation_matches_spec :
    (∀ ds : List (List ℕ × ℚ), rawExtractedText (wfBoxes ds) = aggregateSpec ds) ∧
      rawExtractedText
          (wfBoxes [(strCodes "Hello", 90), (strCodes "xz", 20), (strCodes "World", 60)]) =
        strCodes "Hello World" := by
  constructor
  · intro ds
    unfold rawExtractedText aggregateSpec
    rw [processBoxes_wf]
  · decide

/-- C7: For every detection index whose confidence or text read fails, the
aggregator skips only that index and continues: the aggregated text equals
the aggregation of the well-formed indices alone. -/
theorem malformed_boxes_skipped :
    ∀ boxes : List RawBox,
      rawExtractedText boxes = rawExtractedText (boxes.filter isWellFormedBox) := by
  intro boxes
  unfold rawExtractedText
  rw [← processBoxes_filter_wf]

/-! ### Text Corrector (`postprocess_text`, lines 93–127)

The dictionary collaborator (`pyspellchecker`) is abstracted as a
`SpellEnv`: `unknown` models `spell.unknown(words)` (the subset of tokens
the dictionary does not recognize, in iteration order) and `correction`
models `spell.correction(word)` (the best single correction, `none` when
the library returns `None`).  The outer `Option` on each field models the
call raising an exception, which the enclosing `try` turns into "return
the original text". -/

/-- Whether `s` starts with a case-insensitive occurrence of `w`
(`re.IGNORECASE` matching of an alphanumeric pattern). -/
def matchesCI : List ℕ → List ℕ → Bool
  | [], _ => true
  | _ :: _, [] => false
  | c :: w, d :: s => decide (lowerCode d = lowerCode c) && matchesCI w s

/-- The position after `s` is a `\b` boundary for a word-character pattern:
end of text or a non-word character. -/
def nonWordHead : List ℕ → Bool
  | [] => true
  | c :: _ => !isWordCode c

/-- Scanner for `re.sub(r'\b' + re.escape(word) + r'\b', repl, text,
flags=re.IGNORECASE)` with `word = w₀ :: wr` a non-empty run of word
characters (the only patterns `postprocess_text` builds).  `prevW` records
whether the previously scanned character is a word character (so whether a
`\b` can start here); `fuel` only bounds recursion and is in excess of the
text length at every call. -/
def replGoF (w₀ : ℕ) (wr r : List ℕ) : ℕ → Bool → List ℕ → List ℕ
  | _, _, [] => []
  | 0, _, s => s
  | fuel + 1, prevW, c :: rest =>
    if prevW then c :: replGoF w₀ wr r fuel (isWordCode c) rest
    else if matchesCI (w₀ :: wr) (c :: rest) && nonWordHead (rest.drop wr.length) then
      r ++ replGoF w₀ wr r fuel (isWordCode (wr.getLastD w₀)) (rest.drop wr.length)
    else c :: replGoF w₀ wr r fuel (isWordCode c) rest

/-- Replace every case-insensitive whole-word occurrence of `w` in `s` by
`r` (line 122 of the source). -/
def replaceWordCI (w r s : List ℕ) : List ℕ :=
  match w with
  | [] => s
  | w₀ :: wr => replGoF w₀ wr r s.length false s

/-- Tokenizer `re.findall(r'\b\w+\b', s)`: the maximal runs of word
characters of `s`, in order (fuelled; fuel is in excess of the length). -/
def findWordsF : ℕ → List ℕ → List (List ℕ)
  | _, [] => []
  | 0, _ => []
  | fuel + 1, c :: rest =>
    if isWordCode c then
      (c :: rest).takeWhile isWordCode ::
        findWordsF fuel ((c :: rest).dropWhile isWordCode)
    else findWordsF fuel rest

/-- Tokenization `re.findall(r'\b\w+\b', s)` (line 104 of the source). -/
def findWords (s : List ℕ) : List (List ℕ) := findWordsF s.length s

/-- The spell-checking dictionary collaborator. -/
structure SpellEnv where
  unknown : List (List ℕ) → Option (List (List ℕ))
  correction : List ℕ → Option (Option (List ℕ))

/-- One iteration of the correction loop (lines 113–122): look up the best
correction; when it is truthy and differs from the token, substitute all
case-insensitive whole-word occurrences. -/
def applyCorrection (env : SpellEnv) (acc w : List ℕ) : Option (List ℕ) :=
  match env.correction w with
  | none => none
  | some none => some acc
  | some (some c) => if c ≠ [] ∧ c ≠ w then some (replaceWordCI w c acc) else some acc

/-- Body of the `try` block of `postprocess_text` (lines 100–124): tokenize
the lowercased text, return it unchanged when no tokens, otherwise fold the
correction loop over the unknown tokens.  `none` models an exception. -/
def spellCore (env : SpellEnv) (text : List ℕ) : Option (List ℕ) :=
  let words := findWords (text.map lowerCode)
  if words = [] then some text
  else
    match env.unknown words with
    | none => none
    | some misspelled => List.foldlM (applyCorrection env) text misspelled

/-- Function `postprocess_text` (lines 93–127): gate on the language, and fall back
to the input text when the correction body raises. -/
def postprocess_text (env : SpellEnv) (text : List ℕ) (lang : String) : List ℕ :=
  if lang ≠ "eng" then text
  else (spellCore env text).getD text

/-! ### Spec-side description of whole-word substitution (for C6)

Under the spec's wording, a case-insensitive whole-word occurrence of a
word-character token `w` is a maximal run of word characters that equals
`w` up to case (the `\b` boundaries on both sides are exactly the edges of
a maximal run).  `replaceRuns` replaces every such run by the correction,
everywhere in the text. -/

/-- Replace every maximal word-character run that is case-insensitively
equal to `w` by `r`, everywhere (fuelled; fuel in excess of the length). -/
def replaceRunsF (w r : List ℕ) : ℕ → List ℕ → List ℕ
  | _, [] => []
  | 0, s => s
  | fuel + 1, c :: rest =>
    if isWordCode c then
      (if ((c :: rest).takeWhile isWordCode).map lowerCode = w.map lowerCode then r
       else (c :: rest).takeWhile isWordCode) ++
        replaceRunsF w r fuel ((c :: rest).dropWhile isWordCode)
    else c :: replaceRunsF w r fuel rest

/-- Spec-side substitution: every case-insensitive whole-word occurrence of
`w` in `s` replaced by `r`. -/
def replaceRuns (w r s : List ℕ) : List ℕ := replaceRunsF w r s.length s

theorem matchesCI_iff (w : List ℕ) :
    ∀ s : List ℕ, matchesCI w s = true ↔
      w.length ≤ s.length ∧ (s.take w.length).map lowerCode = w.map lowerCode := by
  induction w with
  | nil => intro s; simp [matchesCI]
  | cons c w ih =>
    intro s
    cases s with
    | nil => simp [matchesCI]
    | cons d s =>
      simp only [matchesCI, Bool.and_eq_true, decide_eq_true_eq, ih, List.length_cons,
        List.take_succ_cons, List.map_cons, List.cons.injEq, Nat.add_le_add_iff_right]
      tauto

theorem matchesCI_head_false {w₀ c : ℕ} (wr rest : List ℕ)
    (hw : isWordCode w₀ = true) (hc : isWordCode c = false) :
    matchesCI (w₀ :: wr) (c :: rest) = false := by
  simp only [matchesCI, Bool.and_eq_false_iff, decide_eq_false_iff_not]
  exact Or.inl (lowerCode_ne_of_word_nonword hw hc)

theorem length_dropWhile_le (p : ℕ → Bool) (l : List ℕ) :
    (l.dropWhile p).length ≤ l.length := by
  induction l with
  | nil => simp
  | cons a l ih =>
    rw [List.dropWhile_cons]
    split
    · exact Nat.le_trans ih (by simp)
    · simp

theorem nonWordHead_dropWhile (l : List ℕ) :
    nonWordHead (l.dropWhile isWordCode) = true := by
  induction l with
  | nil => rfl
  | cons c rest ih =>
    rw [List.dropWhile_cons]
    split
    · exact ih
    · rename_i h
      simp only [nonWordHead, Bool.not_eq_true']
      simpa using h

theorem replGoF_congr (w₀ : ℕ) (wr r : List ℕ) :
    ∀ f₁ f₂ b s, s.length ≤ f₁ → s.length ≤ f₂ →
      replGoF w₀ wr r f₁ b s = replGoF w₀ wr r f₂ b s := by
  intro f₁
  induction f₁ with
  | zero =>
    intro f₂ b s h1 _
    have hs : s = [] := List.eq_nil_of_length_eq_zero (Nat.le_zero.mp h1)
    subst hs
    cases f₂ <;> rfl
  | succ f₁ ih =>
    intro f₂ b s h1 h2
    cases s with
    | nil => cases f₂ <;> rfl
    | cons c rest =>
      cases f₂ with
      | zero => simp at h2
      | succ f₂ =>
        simp only [List.length_cons, Nat.add_le_add_iff_right] at h1 h2
        have hdrop1 : (rest.drop wr.length).length ≤ f₁ := by
          rw [List.length_drop]; omega
        have hdrop2 : (rest.drop wr.length).length ≤ f₂ := by
          rw [List.length_drop]; omega
        simp only [replGoF]
        by_cases hb : b
        · rw [if_pos hb, if_pos hb, ih f₂ (isWordCode c) rest h1 h2]
        · rw [if_neg hb, if_neg hb]
          by_cases hm :
              (matchesCI (w₀ :: wr) (c :: rest) && nonWordHead (rest.drop wr.length)) = true
          · rw [if_pos hm, if_pos hm,
              ih f₂ (isWordCode (wr.getLastD w₀)) (rest.drop wr.length) hdrop1 hdrop2]
          · rw [if_neg hm, if_neg hm, ih f₂ (isWordCode c) rest h1 h2]

theorem replaceRunsF_congr (w r : List ℕ) :
    ∀ f₁ f₂ s, s.length ≤ f₁ → s.length ≤ f₂ →
      replaceRunsF w r f₁ s = replaceRunsF w r f₂ s := by
  intro f₁
  induction f₁ with
  | zero =>
    intro f₂ s h1 _
    have hs : s = [] := List.eq_nil_of_length_eq_zero (Nat.le_zero.mp h1)
    subst hs
    cases f₂ <;> rfl
  | succ f₁ ih =>
    intro f₂ s h1 h2
    cases s with
    | nil => cases f₂ <;> rfl
    | cons c rest =>
      cases f₂ with
      | zero => simp at h2
      | succ f₂ =>
        simp only [List.length_cons, Nat.add_le_add_iff_right] at h1 h2
        simp only [replaceRunsF]
        by_cases hc : isWordCode c
        · have hlen1 : ((c :: rest).dropWhile isWordCode).length ≤ f₁ := by
            rw [List.dropWhile_cons_of_pos hc]
            exact Nat.le_trans (length_dropWhile_le isWordCode rest) h1
          have hlen2 : ((c :: rest).dropWhile isWordCode).length ≤ f₂ := by
            rw [List.dropWhile_cons_of_pos hc]
            exact Nat.le_trans (length_dropWhile_le isWordCode rest) h2
          rw [if_pos hc, if_pos hc, ih f₂ _ hlen1 hlen2]
        · rw [if_neg hc, if_neg hc, ih f₂ rest h1 h2]

theorem replGoF_through_run (w₀ : ℕ) (wr r : List ℕ) :
    ∀ run t : List ℕ, (∀ c ∈ run, isWordCode c = true) →
      ∀ f, run.length + t.length ≤ f →
        replGoF w₀ wr r f true (run ++ t) =
          run ++ replGoF w₀ wr r (f - run.length) true t := by
  intro run
  induction run with
  | nil => intro t _ f _; simp
  | cons a run ih =>
    intro t hmem f hf
    cases f with
    | zero => simp at hf
    | succ f =>
      have ha : isWordCode a = true := hmem a (List.mem_cons_self a run)
      have hrec := ih t (fun c hc => hmem c (List.mem_cons_of_mem a hc)) f
        (by simp only [List.length_cons] at hf; omega)
      simp only [List.cons_append, replGoF, if_true, ite_true, List.append_eq, ha, hrec,
        List.length_cons, Nat.succ_sub_succ]

theorem replGoF_at_boundary (w₀ : ℕ) (wr r : List ℕ) (hw : isWordCode w₀ = true) :
    ∀ f s, nonWordHead s = true →
      replGoF w₀ wr r f true s = replGoF w₀ wr r f false s := by
  intro f s hs
  cases s with
  | nil => cases f <;> rfl
  | cons c rest =>
    cases f with
    | zero => rfl
    | succ f =>
      have hc : isWordCode c = false := by
        simpa [nonWordHead] using hs
      simp only [replGoF, if_true, ite_true, matchesCI_head_false wr rest hw hc, Bool.false_and,
        Bool.false_eq_true, if_neg, ite_false]

theorem replGoF_eq_replaceRunsF (w₀ : ℕ) (wr r : List ℕ)
    (hw : ∀ c ∈ w₀ :: wr, isWordCode c = true) :
    ∀ n s, s.length ≤ n →
      replGoF w₀ wr r s.length false s = replaceRunsF (w₀ :: wr) r s.length s := by
  have hw₀ : isWordCode w₀ = true := hw w₀ (List.mem_cons_self w₀ wr)
  intro n
  induction n with
  | zero =>
    intro s hs
    have h : s = [] := List.eq_nil_of_length_eq_zero (Nat.le_zero.mp hs)
    subst h
    rfl
  | succ n ih =>
    intro s hs
    cases s with
    | nil => rfl
    | cons c rest =>
      simp only [List.length_cons, Nat.add_le_add_iff_right] at hs
      by_cases hc : isWordCode c = true
      · -- the text starts with a maximal word-character run
        have hsplit : rest.takeWhile isWordCode ++ rest.dropWhile isWordCode = rest :=
          List.takeWhile_append_dropWhile isWordCode rest
        have hmemrun' : ∀ x ∈ rest.takeWhile isWordCode, isWordCode x = true :=
          fun x hx => List.mem_takeWhile_imp hx
        have hnwh : nonWordHead (rest.dropWhile isWordCode) = true :=
          nonWordHead_dropWhile rest
        have hlen : (rest.takeWhile isWordCode).length + (rest.dropWhile isWordCode).length
            = rest.length := by
          conv_rhs => rw [← hsplit]
          rw [List.length_append]
        have hrest'n : (rest.dropWhile isWordCode).length ≤ n := by omega
        have hcr : c :: rest
            = (c :: rest.takeWhile isWordCode) ++ rest.dropWhile isWordCode := by
          rw [List.cons_append, hsplit]
        by_cases hci :
            (c :: rest.takeWhile isWordCode).map lowerCode = (w₀ :: wr).map lowerCode
        · -- leading run equals the token up to case: both sides substitute `r`
          have klen : (rest.takeWhile isWordCode).length = wr.length := by
            have h := congrArg List.length hci
            simpa using h
          have htake : (c :: rest).take (wr.length + 1) = c :: rest.takeWhile isWordCode := by
            conv_lhs => rw [hcr]
            exact List.take_left' (by simp [klen])
          have hmatch : matchesCI (w₀ :: wr) (c :: rest) = true := by
            rw [matchesCI_iff]
            refine ⟨by simp; omega, ?_⟩
            have hwl : (w₀ :: wr).length = wr.length + 1 := by simp
            rw [hwl, htake, hci]
          have hdrop : rest.drop wr.length = rest.dropWhile isWordCode := by
            conv_lhs => rw [← hsplit]
            exact List.drop_left' klen
          have hflag : isWordCode (wr.getLastD w₀) = true :=
            hw _ (List.getLastD_mem_cons wr w₀)
          simp only [List.length_cons, replGoF, replaceRunsF, Bool.false_eq_true, if_false,
            ite_false, hdrop, hmatch, hnwh, Bool.and_self, if_true, ite_true, hflag, hc,
            List.takeWhile_cons_of_pos, List.dropWhile_cons_of_pos, hci]
          rw [replGoF_at_boundary w₀ wr r hw₀ rest.length _ hnwh,
            replGoF_congr w₀ wr r rest.length (rest.dropWhile isWordCode).length false _
              (by omega) le_rfl,
            ih _ hrest'n,
            replaceRunsF_congr (w₀ :: wr) r rest.length (rest.dropWhile isWordCode).length _
              (by omega) le_rfl]
        · -- leading run differs from the token: both sides keep the run
          have hcond : (matchesCI (w₀ :: wr) (c :: rest)
              && nonWordHead (rest.drop wr.length)) = false := by
            cases hcc : matchesCI (w₀ :: wr) (c :: rest) && nonWordHead (rest.drop wr.length) with
            | false => rfl
            | true =>
            exfalso
            rw [Bool.and_eq_true] at hcc
            obtain ⟨hm, hb⟩ := hcc
            rw [matchesCI_iff] at hm
            obtain ⟨hmlen, htk⟩ := hm
            simp only [List.length_cons, Nat.add_le_add_iff_right] at hmlen htk
            rcases Nat.lt_trichotomy wr.length (rest.takeWhile isWordCode).length
              with hlt | heq | hgt
            · -- the token would end inside the run: no right boundary
              have hd : rest.drop wr.length
                  = (rest.takeWhile isWordCode).drop wr.length ++ rest.dropWhile isWordCode := by
                conv_lhs => rw [← hsplit]
                exact List.drop_append_of_le_length (Nat.le_of_lt hlt)
              have hpos : 0 < ((rest.takeWhile isWordCode).drop wr.length).length := by
                rw [List.length_drop]; omega
              cases hdd : (rest.takeWhile isWordCode).drop wr.length with
              | nil => rw [hdd] at hpos; simp at hpos
              | cons a tl =>
                have ha : a ∈ rest.takeWhile isWordCode :=
                  List.mem_of_mem_drop (by rw [hdd]; exact List.mem_cons_self a tl)
                have haw : isWordCode a = true := hmemrun' a ha
                rw [hd, hdd] at hb
                simp [nonWordHead, haw] at hb
            · -- the token would cover the run exactly: contradicts the case split
              have htake : (c :: rest).take (wr.length + 1)
                  = c :: rest.takeWhile isWordCode := by
                conv_lhs => rw [hcr]
                exact List.take_left' (by simp [heq])
              rw [htake] at htk
              exact hci htk
            · -- the token would extend past the run: the next character is non-word
              have hr'pos : 0 < (rest.dropWhile isWordCode).length := by omega
              cases hre : rest.dropWhile isWordCode with
              | nil => rw [hre] at hr'pos; simp at hr'pos
              | cons a t' =>
                have htake : (c :: rest).take (wr.length + 1)
                    = (c :: rest.takeWhile isWordCode)
                      ++ (rest.dropWhile isWordCode).take
                          (wr.length + 1 - ((rest.takeWhile isWordCode).length + 1)) := by
                  conv_lhs => rw [hcr]
                  rw [List.take_append_eq_append_take,
                    List.take_of_length_le (by simp; omega), List.length_cons]
                have hmem_a : a ∈ (c :: rest).take (wr.length + 1) := by
                  rw [htake, hre]
                  refine List.mem_append_right _ ?_
                  have hm1 : wr.length + 1 - ((rest.takeWhile isWordCode).length + 1)
                      = (wr.length - (rest.takeWhile isWordCode).length - 1) + 1 := by omega
                  rw [hm1, List.take_succ_cons]
                  exact List.mem_cons_self a _
                have hmapmem : lowerCode a ∈ ((c :: rest).take (wr.length + 1)).map lowerCode :=
                  List.mem_map_of_mem lowerCode hmem_a
                rw [htk] at hmapmem
                obtain ⟨y, hy, hl⟩ := List.mem_map.mp hmapmem
                have hya : isWordCode a = isWordCode y := by
                  rw [← isWordCode_lowerCode a, ← isWordCode_lowerCode y, hl]
                have haw : isWordCode a = true := by rw [hya]; exact hw y hy
                rw [hre] at hnwh
                simp [nonWordHead, haw] at hnwh
          have heq2 : rest.length - (rest.takeWhile isWordCode).length
              = (rest.dropWhile isWordCode).length := by omega
          have hstep : replGoF w₀ wr r rest.length true rest
              = rest.takeWhile isWordCode
                ++ replaceRunsF (w₀ :: wr) r (rest.dropWhile isWordCode).length
                    (rest.dropWhile isWordCode) := by
            nth_rewrite 2 [← hsplit]
            rw [replGoF_through_run w₀ wr r _ _ hmemrun' rest.length (by omega), heq2,
              replGoF_at_boundary w₀ wr r hw₀ _ _ hnwh, ih _ hrest'n]
          simp only [List.length_cons, replGoF, replaceRunsF, Bool.false_eq_true, if_false,
            ite_false, hcond, hc, if_true, ite_true,
            List.takeWhile_cons_of_pos, List.dropWhile_cons_of_pos, hci, hstep]
          rw [replaceRunsF_congr (w₀ :: wr) r rest.length (rest.dropWhile isWordCode).length _
            (by omega) le_rfl, List.cons_append]
      · -- the head is not a word character: both sides copy it
        have hcf : isWordCode c = false := by simpa using hc
        simp only [List.length_cons, replGoF, replaceRunsF, Bool.false_eq_true, if_false,
          ite_false, matchesCI_head_false wr rest hw₀ hcf, Bool.false_and, hcf,
          ih rest hs]

/-- C6: For every unknown token (a non-empty run of word characters, the only
form `postprocess_text` produces) whose dictionary correction exists and
differs, the substitution performed by the Corrector replaces every
case-insensitive whole-word occurrence of the token — i.e. every maximal
word-character run equal to it up to case — anywhere in the text, with the
same correction each time. -/
theorem replaceWordCI_replaces_every_occurrence (w r s : List ℕ)
    (hne : w ≠ []) (hw : ∀ c ∈ w, isWordCode c = true) :
    replaceWordCI w r s = replaceRuns w r s := by
  cases w with
  | nil => exact absurd rfl hne
  | cons w₀ wr =>
    unfold replaceWordCI replaceRuns
    exact replGoF_eq_replaceRunsF w₀ wr r hw s.length s le_rfl

/-- Dictionary double for the C4 scenario: reports `"teh"` and `"qick"` as
the unknown tokens, with best corrections `"The"` and `"quick"`; every other
token is known. -/
def spellEnvFox : SpellEnv :=
  ⟨fun ws => some (ws.filter (fun w => w == strCodes "teh" || w == strCodes "qick")),
   fun w =>
     if w = strCodes "teh" then some (some (strCodes "The"))
     else if w = strCodes "qick" then some (some (strCodes "quick"))
     else some none⟩

/-- C4: With language `"eng"`, raw aggregated text `"Teh qick brown fox"`,
and the dictionary reporting `"teh"` and `"qick"` unknown with best
corrections `"The"` and `"quick"`, the Text Corrector returns
`"The quick brown fox"`. -/
theorem spellcheck_fox_scenario :
    postprocess_text spellEnvFox (strCodes "Teh qick brown fox") "eng"
      = strCodes "The quick brown fox" := by
  decide

/-- C5: The Text Corrector returns its input unchanged whenever the language
is not `"eng"`, the lowercased text has no word tokens, the dictionary
reports no unknown tokens, or the correction body raises — correction never
aborts the pipeline. -/
theorem postprocess_text_unchanged (env : SpellEnv) (text : List ℕ) (lang : String) :
    (lang ≠ "eng" → postprocess_text env text lang = text) ∧
      (findWords (text.map lowerCode) = [] → postprocess_text env text lang = text) ∧
      (env.unknown (findWords (text.map lowerCode)) = some [] →
        postprocess_text env text lang = text) ∧
      (spellCore env text = none → postprocess_text env text lang = text) := by
  refine ⟨?_, ?_, ?_, ?_⟩
  · intro h
    simp [postprocess_text, h]
  · intro h
    by_cases hl : lang = "eng"
    · simp [postprocess_text, hl, spellCore, h]
    · simp [postprocess_text, hl]
  · intro h
    by_cases hl : lang = "eng"
    · by_cases hwv : findWords (text.map lowerCode) = []
      · simp [postprocess_text, hl, spellCore, hwv]
      · simp [postprocess_text, hl, spellCore, hwv, h]
    · simp [postprocess_text, hl]
  · intro h
    by_cases hl : lang = "eng"
    · simp [postprocess_text, hl, h]
    · simp [postprocess_text, hl]

/-- Trivial dictionary double: nothing unknown, no corrections. -/
def spellEnvNoop : SpellEnv := ⟨fun _ => some [], fun _ => some none⟩

theorem postprocess_text_unchanged_witness :
    ("ind" ≠ "eng") ∧
      postprocess_text spellEnvNoop (strCodes "abc def") "ind" = strCodes "abc def" :=
  ⟨by decide,
    (postprocess_text_unchanged spellEnvNoop (strCodes "abc def") "ind").1 (by decide)⟩

theorem replaceWordCI_replaces_every_occurrence_witness :
    (strCodes "teh" ≠ [] ∧ (∀ c ∈ strCodes "teh", isWordCode c = true)) ∧
      replaceWordCI (strCodes "teh") (strCodes "the") (strCodes "Teh or teh.")
        = replaceRuns (strCodes "teh") (strCodes "the") (strCodes "Teh or teh.") :=
  ⟨⟨by decide, by decide⟩,
    replaceWordCI_replaces_every_occurrence (strCodes "teh") (strCodes "the")
      (strCodes "Teh or teh.") (by decide) (by decide)⟩

/-! ### Image buffers and exceptions -/

/-- A single-channel image buffer (`numpy` array): `shape[:2] = (h, w)` and
a pixel-intensity function (values 0–255 for `uint8` buffers). -/
structure Img where
  h : ℕ
  w : ℕ
  pix : ℕ → ℕ → ℕ

/-- A Python exception as classified by `perform_ocr`'s `except` clauses:
`ValueError` (with message), `pytesseract.TesseractNotFoundError`, or any
other exception (identified by its type name). -/
inductive Exc where
  | valueError (msg : String)
  | tesseractNotFound
  | otherExc (name : String)
deriving DecidableEq

/-- The error surfaced by `perform_ocr` to its caller, in the spec's
taxonomy: the re-raised `ValueError` plays the `ImageLoadError` role, the
re-raised `TesseractNotFoundError` the `EngineNotFoundError` role, and the
`RuntimeError` raised in the catch-all clause (which chains the original
exception as its context) the `RecognitionError` role. -/
inductive OcrFailure where
  | imageLoadError (msg : String)
  | engineNotFoundError
  | recognitionError (msg : String) (cause : Exc)
deriving DecidableEq

/-! ### Skew Estimator/Corrector (`deskew_image`, lines 38–89)

OpenCV collaborators are abstracted: `otsuThreshold` models
`cv2.threshold(·, 0, 255, THRESH_BINARY + THRESH_OTSU)`; `minAreaRectAngle`
models `cv2.minAreaRect(coords)[-1]` (an angle in `[-90, 0)`);
`warpAffine` models `cv2.getRotationMatrix2D(center, angle, 1.0)` followed
by `cv2.warpAffine(..., (w, h), INTER_CUBIC, BORDER_REPLICATE)`, returning
the rotated pixel field for the given output size.  A `none` models the
call raising. -/

structure DeskewEnv where
  otsuThreshold : Img → Option Img
  minAreaRectAngle : List (ℕ × ℕ) → Option ℚ
  warpAffine : (ℕ → ℕ → ℕ) → (ℕ × ℕ) → ℚ → ℕ → ℕ → Option (ℕ → ℕ → ℕ)

/-- Operation `cv2.bitwise_not` on a `uint8` buffer: pixel-wise `255 - v`. -/
def bitwiseNot (img : Img) : Img := ⟨img.h, img.w, fun i j => 255 - img.pix i j⟩

/-- Coordinates `np.column_stack(np.where(thresh > 0))`: the in-range coordinates of all
non-zero pixels, in row-major order. -/
def nonzeroCoords (img : Img) : List (ℕ × ℕ) :=
  (List.range img.h).flatMap fun i =>
    (List.range img.w).filterMap fun j =>
      if 0 < img.pix i j then some (i, j) else none

/-- Angle normalization (lines 61–64): map the `minAreaRect` angle
convention onto a signed rotation relative to the horizontal axis. -/
def normalizeAngle (a : ℚ) : ℚ := if a < -45 then -(90 + a) else -a

/-- Body of `deskew_image`'s `try` block; `none` models an exception
escaping to the `except` clause. -/
def deskewCore (env : DeskewEnv) (gray : Img) : Option Img :=
  match env.otsuThreshold (bitwiseNot gray) with
  | none => none
  | some thresh =>
    if nonzeroCoords thresh = [] then some gray
    else
      match env.minAreaRectAngle (nonzeroCoords thresh) with
      | none => none
      | some angle =>
        let corrected := normalizeAngle angle
        if 1 / 2 < |corrected| then
          match env.warpAffine gray.pix (gray.w / 2, gray.h / 2) corrected gray.w gray.h with
          | none => none
          | some rotated => some ⟨gray.h, gray.w, rotated⟩
        else some gray

/-- Function `deskew_image` (lines 38–89): the `except` clause returns the original
grayscale buffer on any exception. -/
def deskew_image (env : DeskewEnv) (gray : Img) : Img :=
  (deskewCore env gray).getD gray

/-- C3: For every grayscale buffer, deskew returns the input bit-identically
unchanged when no non-zero candidate pixel exists after inversion and Otsu
thresholding, when the normalized corrected angle has absolute value ≤ 0.5°,
or when any collaborator call raises during estimation; otherwise it returns
the buffer rotated about its center (`(w/2, h/2)`) by the corrected angle —
via the cubic-interpolation, replicated-border warp — with its dimensions
preserved. -/
theorem deskew_image_spec (env : DeskewEnv) (gray : Img) :
    (env.otsuThreshold (bitwiseNot gray) = none → deskew_image env gray = gray) ∧
      (∀ thresh, env.otsuThreshold (bitwiseNot gray) = some thresh →
        nonzeroCoords thresh = [] → deskew_image env gray = gray) ∧
      (∀ thresh, env.otsuThreshold (bitwiseNot gray) = some thresh →
        nonzeroCoords thresh ≠ [] →
        env.minAreaRectAngle (nonzeroCoords thresh) = none →
        deskew_image env gray = gray) ∧
      (∀ thresh angle, env.otsuThreshold (bitwiseNot gray) = some thresh →
        nonzeroCoords thresh ≠ [] →
        env.minAreaRectAngle (nonzeroCoords thresh) = some angle →
        |normalizeAngle angle| ≤ 1 / 2 → deskew_image env gray = gray) ∧
      (∀ thresh angle, env.otsuThreshold (bitwiseNot gray) = some thresh →
        nonzeroCoords thresh ≠ [] →
        env.minAreaRectAngle (nonzeroCoords thresh) = some angle →
        1 / 2 < |normalizeAngle angle| →
        env.warpAffine gray.pix (gray.w / 2, gray.h / 2) (normalizeAngle angle) gray.w gray.h
            = none →
        deskew_image env gray = gray) ∧
      (∀ thresh angle rotated, env.otsuThreshold (bitwiseNot gray) = some thresh →
        nonzeroCoords thresh ≠ [] →
        env.minAreaRectAngle (nonzeroCoords thresh) = some angle →
        1 / 2 < |normalizeAngle angle| →
        env.warpAffine gray.pix (gray.w / 2, gray.h / 2) (normalizeAngle angle) gray.w gray.h
            = some rotated →
        deskew_image env gray = ⟨gray.h, gray.w, rotated⟩) := by
  refine ⟨?_, ?_, ?_, ?_, ?_, ?_⟩
  · intro h
    simp [deskew_image, deskewCore, h]
  · intro thresh ht hz
    simp [deskew_image, deskewCore, ht, hz]
  · intro thresh ht hz ha
    simp [deskew_image, deskewCore, ht, hz, ha]
  · intro thresh angle ht hz ha hle
    have hle' : ¬((2⁻¹ : ℚ) < |normalizeAngle angle|) := by
      rw [show ((2⁻¹ : ℚ)) = 1 / 2 by norm_num]
      exact not_lt.mpr hle
    simp [deskew_image, deskewCore, ht, hz, ha, hle']
  · intro thresh angle ht hz ha hlt hwarp
    have hlt' : ((2⁻¹ : ℚ)) < |normalizeAngle angle| := by
      rw [show ((2⁻¹ : ℚ)) = 1 / 2 by norm_num]
      exact hlt
    simp [deskew_image, deskewCore, ht, hz, ha, hlt', hwarp]
  · intro thresh angle rotated ht hz ha hlt hwarp
    have hlt' : ((2⁻¹ : ℚ)) < |normalizeAngle angle| := by
      rw [show ((2⁻¹ : ℚ)) = 1 / 2 by norm_num]
      exact hlt
    simp [deskew_image, deskewCore, ht, hz, ha, hlt', hwarp]

/-- A concrete grayscale buffer for witnesses. -/
def grayW : Img := ⟨2, 3, fun _ _ => 7⟩

/-- Collaborator double whose Otsu thresholding raises. -/
def deskewEnvRaise : DeskewEnv := ⟨fun _ => none, fun _ => none, fun _ _ _ _ _ => none⟩

theorem deskew_image_spec_witness :
    deskewEnvRaise.otsuThreshold (bitwiseNot grayW) = none ∧
      deskew_image deskewEnvRaise grayW = grayW :=
  ⟨rfl, (deskew_image_spec deskewEnvRaise grayW).1 rfl⟩

/-! ### Image Conditioner (`preprocess_image_for_ocr`, lines 131–214)

OpenCV collaborators are abstracted in `CvEnv`: `imread` models
`cv2.imread` (`none` = undecodable file), `cvtColorGray` models
`cv2.cvtColor(·, COLOR_BGR2GRAY)`, `claheApply` models
`cv2.createCLAHE(2.0, (8,8)).apply`, `gaussianBlur`/`medianBlur` model the
5×5 blurs, and `gaussianWeightedMean b img i j` models the Gaussian-weighted
mean of the size-`b` neighbourhood of `(i, j)` used by
`cv2.adaptiveThreshold(..., ADAPTIVE_THRESH_GAUSSIAN_C, ...)`.  An
`Except.error` models the call raising. -/

structure CvEnv where
  imread : String → Option Img
  cvtColorGray : Img → Except Exc Img
  claheApply : Img → Except Exc Img
  gaussianBlur : Img → Except Exc Img
  medianBlur : Img → Except Exc Img
  gaussianWeightedMean : ℕ → Img → ℕ → ℕ → ℚ
  deskewEnv : DeskewEnv

/-- Operation `cv2.adaptiveThreshold(src, maxValue, ADAPTIVE_THRESH_GAUSSIAN_C,
THRESH_BINARY_INV, blockSize, C)` given the per-pixel Gaussian-weighted
local mean: `dst(i,j) = 0` if `src(i,j) > mean(i,j) - C`, else `maxValue`. -/
def adaptiveThreshold (localMean : ℕ → ℕ → ℚ) (maxValue : ℕ) (c : ℚ) (src : Img) : Img :=
  ⟨src.h, src.w, fun i j => if localMean i j - c < (src.pix i j : ℚ) then 0 else maxValue⟩

/-- Function `preprocess_image_for_ocr` (lines 131–214): load and grayscale the
image, optionally deskew, optionally CLAHE, optionally blur, then the
mandatory Gaussian adaptive binarization with block size 11 and constant 4.
Any exception propagates (`Except.error`); an unreadable file raises
`ValueError("Could not read image file.")`. -/
def preprocess_image_for_ocr (env : CvEnv) (image_path : String)
    (apply_deskew apply_clahe : Bool) (blur_type : String) : Except Exc Img :=
  match env.imread image_path with
  | none => Except.error (Exc.valueError "Could not read image file.")
  | some img =>
    match env.cvtColorGray img with
    | Except.error e => Except.error e
    | Except.ok gray =>
      match (if apply_clahe then
               env.claheApply (if apply_deskew then deskew_image env.deskewEnv gray else gray)
             else
               Except.ok (if apply_deskew then deskew_image env.deskewEnv gray else gray)) with
      | Except.error e => Except.error e
      | Except.ok afterClahe =>
        match (if blur_type = "Gaussian" then env.gaussianBlur afterClahe
               else if blur_type = "Median" then env.medianBlur afterClahe
               else Except.ok afterClahe) with
        | Except.error e => Except.error e
        | Except.ok afterBlur =>
          Except.ok (adaptiveThreshold (env.gaussianWeightedMean 11 afterBlur) 255 4 afterBlur)

/-! ### Recognition Aggregator / entry point (`perform_ocr`, lines 219–325) -/

/-- The Pydantic result model (lines 25–29). `full_text` is the code-point
sequence of the Python string. -/
structure OcrResult where
  full_text : List ℕ
  processed_image_width : ℕ
  processed_image_height : ℕ

/-- Base configuration string of line 239 (oem, psm and language flags). -/
def baseConfig (oem psm : ℤ) (lang : String) : String :=
  "--oem " ++ toString oem ++ " --psm " ++ toString psm ++ " -l " ++ lang

/-- The engine configuration string (lines 239–244): append the tessdata
override iff `tessdata_dir` is truthy (non-`None`, non-empty) and
`os.path.isdir` holds, normalizing backslashes to forward slashes. -/
def buildConfig (isdir : String → Bool) (oem psm : ℤ) (lang : String)
    (tessdata_dir : Option String) : String :=
  match tessdata_dir with
  | none => baseConfig oem psm lang
  | some d =>
    if d ≠ "" ∧ isdir d then
      baseConfig oem psm lang ++ " --tessdata-dir " ++ d.replace "\\" "/"
    else baseConfig oem psm lang

/-- The full environment of `perform_ocr`: OpenCV, `os.path.isdir`, the
Tesseract engine (`pytesseract.image_to_data`, returning the per-index
records, or raising), and the spell-checking dictionary. -/
structure OcrEnv where
  cv : CvEnv
  isdir : String → Bool
  engine : Img → String → Except Exc (List RawBox)
  spell : SpellEnv

/-- The `except` clauses of `perform_ocr` (lines 313–325):
`TesseractNotFoundError` and `ValueError` are re-raised as themselves; any
other exception is wrapped in a `RuntimeError` naming the exception type,
with the original chained as its context. -/
def dispatchFailure : Exc → OcrFailure
  | Exc.tesseractNotFound => OcrFailure.engineNotFoundError
  | Exc.valueError m => OcrFailure.imageLoadError m
  | Exc.otherExc n =>
    OcrFailure.recognitionError ("An unexpected error occurred during OCR: " ++ n)
      (Exc.otherExc n)

/-- Function `perform_ocr` (lines 219–325): build the config, condition the image,
invoke the engine, aggregate and optionally spell-correct the text, and
return the result together with the conditioned buffer. -/
def perform_ocr (env : OcrEnv) (image_path lang : String) (psm oem : ℤ)
    (tessdata_dir : Option String) (apply_deskew apply_clahe : Bool)
    (blur_type : String) (apply_spellcheck : Bool) :
    Except OcrFailure (OcrResult × Img) :=
  match preprocess_image_for_ocr env.cv image_path apply_deskew apply_clahe blur_type with
  | Except.error e => Except.error (dispatchFailure e)
  | Except.ok processed =>
    match env.engine processed (buildConfig env.isdir oem psm lang tessdata_dir) with
    | Except.error e => Except.error (dispatchFailure e)
    | Except.ok boxes =>
      Except.ok
        (⟨if apply_spellcheck then postprocess_text env.spell (rawExtractedText boxes) lang
          else rawExtractedText boxes,
          processed.w, processed.h⟩,
         processed)

/-- The conditioner's output is always the adaptive threshold of some
buffer: case analysis over the fallible stages. -/
theorem preprocess_shape (env : CvEnv) (path : String) (dk cl : Bool) (bt : String) :
    (∃ e, preprocess_image_for_ocr env path dk cl bt = Except.error e) ∨
      ∃ base, preprocess_image_for_ocr env path dk cl bt
        = Except.ok (adaptiveThreshold (env.gaussianWeightedMean 11 base) 255 4 base) := by
  unfold preprocess_image_for_ocr
  repeat' split
  all_goals first
    | exact Or.inl ⟨_, rfl⟩
    | exact Or.inr ⟨_, rfl⟩

/-- C10: For every decodable input and option combination, the conditioned
buffer is produced by the Gaussian adaptive threshold with block size 11
and bias constant 4 as the final mandatory step, its pixels take only the
values 0 and 255, and the polarity is inverted: a pixel is 0 (background)
exactly when the source pixel exceeds its local Gaussian-weighted mean
minus 4, and 255 (text) otherwise. -/
theorem conditioner_binary_inverted (env : CvEnv) (path : String) (dk cl : Bool) (bt : String)
    (out : Img) (h : preprocess_image_for_ocr env path dk cl bt = Except.ok out) :
    (∀ i j, out.pix i j = 0 ∨ out.pix i j = 255) ∧
      ∃ base : Img,
        out = adaptiveThreshold (env.gaussianWeightedMean 11 base) 255 4 base ∧
          ∀ i j, (out.pix i j = 0 ↔
            env.gaussianWeightedMean 11 base i j - 4 < (base.pix i j : ℚ)) := by
  rcases preprocess_shape env path dk cl bt with ⟨e, he⟩ | ⟨base, hb⟩
  · rw [he] at h
    exact absurd h (by simp)
  · rw [hb] at h
    have hout : out = adaptiveThreshold (env.gaussianWeightedMean 11 base) 255 4 base :=
      (Except.ok.inj h).symm
    subst hout
    constructor
    · intro i j
      dsimp [adaptiveThreshold]
      split
      · exact Or.inl rfl
      · exact Or.inr rfl
    · refine ⟨base, rfl, ?_⟩
      intro i j
      dsimp [adaptiveThreshold]
      split
      · rename_i hcond
        simp [hcond]
      · rename_i hcond
        simp [hcond]

/-- Concrete OpenCV double: a constant 2×3 image, pass-through transforms,
zero local means. -/
def cvEnvW : CvEnv :=
  ⟨fun _ => some grayW, Except.ok, Except.ok, Except.ok, Except.ok,
   fun _ _ _ _ => 0, deskewEnvRaise⟩

/-- The conditioned buffer `cvEnvW` produces. -/
def condW : Img := adaptiveThreshold (fun _ _ => 0) 255 4 grayW

theorem conditioner_binary_inverted_witness :
    preprocess_image_for_ocr cvEnvW "doc.png" true true "Gaussian" = Except.ok condW ∧
      ∀ i j, condW.pix i j = 0 ∨ condW.pix i j = 255 :=
  ⟨rfl, (conditioner_binary_inverted cvEnvW "doc.png" true true "Gaussian" condW rfl).1⟩

/-- C2: For every successful invocation of `perform_ocr`, the recorded
dimensions of the result are the pixel dimensions of the conditioned buffer
returned alongside it (the buffer submitted to the engine), read after
preprocessing — never those of the original input image. -/
theorem perform_ocr_records_conditioned_dims (env : OcrEnv) (path lang : String)
    (psm oem : ℤ) (td : Option String) (dk cl : Bool) (bt : String) (sc : Bool)
    (res : OcrResult) (buf : Img)
    (h : perform_ocr env path lang psm oem td dk cl bt sc = Except.ok (res, buf)) :
    res.processed_image_width = buf.w ∧ res.processed_image_height = buf.h := by
  unfold perform_ocr at h
  split at h
  · exact absurd h (by simp)
  · split at h
    · exact absurd h (by simp)
    · rw [Except.ok.injEq, Prod.mk.injEq] at h
      obtain ⟨hres, hbuf⟩ := h
      subst hbuf
      subst hres
      exact ⟨rfl, rfl⟩

/-- Concrete full environment where everything succeeds. -/
def ocrEnvW : OcrEnv := ⟨cvEnvW, fun _ => false, fun _ _ => Except.ok [], spellEnvNoop⟩

/-- The result `ocrEnvW` produces. -/
def resW : OcrResult := ⟨[], 3, 2⟩

theorem perform_ocr_records_conditioned_dims_witness :
    perform_ocr ocrEnvW "doc.png" "eng" 3 3 none true true "Gaussian" true
        = Except.ok (resW, condW) ∧
      resW.processed_image_width = condW.w ∧ resW.processed_image_height = condW.h :=
  ⟨rfl,
    perform_ocr_records_conditioned_dims ocrEnvW "doc.png" "eng" 3 3 none true true
      "Gaussian" true resW condW rfl⟩

/-- C8: the failure taxonomy of `perform_ocr`.  An engine-not-found
condition surfaces as the distinct `EngineNotFoundError` (never the generic
`RecognitionError`); any other unexpected exception during conditioning or
engine invocation surfaces as a `RecognitionError` that names and chains
the causing exception; an undecodable input surfaces as the
`ImageLoadError`-role `ValueError`. -/
theorem perform_ocr_failure_taxonomy (env : OcrEnv) (path lang : String) (psm oem : ℤ)
    (td : Option String) (dk cl : Bool) (bt : String) (sc : Bool) :
    (∀ processed, preprocess_image_for_ocr env.cv path dk cl bt = Except.ok processed →
        env.engine processed (buildConfig env.isdir oem psm lang td)
            = Except.error Exc.tesseractNotFound →
        perform_ocr env path lang psm oem td dk cl bt sc
            = Except.error OcrFailure.engineNotFoundError ∧
          ∀ m c, perform_ocr env path lang psm oem td dk cl bt sc
              ≠ Except.error (OcrFailure.recognitionError m c)) ∧
      (∀ n, preprocess_image_for_ocr env.cv path dk cl bt = Except.error (Exc.otherExc n) →
        perform_ocr env path lang psm oem td dk cl bt sc
          = Except.error (OcrFailure.recognitionError
              ("An unexpected error occurred during OCR: " ++ n) (Exc.otherExc n))) ∧
      (∀ processed n, preprocess_image_for_ocr env.cv path dk cl bt = Except.ok processed →
        env.engine processed (buildConfig env.isdir oem psm lang td)
            = Except.error (Exc.otherExc n) →
        perform_ocr env path lang psm oem td dk cl bt sc
          = Except.error (OcrFailure.recognitionError
              ("An unexpected error occurred during OCR: " ++ n) (Exc.otherExc n))) ∧
      (env.cv.imread path = none →
        perform_ocr env path lang psm oem td dk cl bt sc
          = Except.error (OcrFailure.imageLoadError "Could not read image file.")) := by
  refine ⟨?_, ?_, ?_, ?_⟩
  · intro processed hpre heng
    have heq : perform_ocr env path lang psm oem td dk cl bt sc
        = Except.error OcrFailure.engineNotFoundError := by
      simp only [perform_ocr, hpre, heng]
      rfl
    refine ⟨heq, ?_⟩
    intro m c
    rw [heq]
    simp
  · intro n hpre
    simp only [perform_ocr, hpre]
    rfl
  · intro processed n hpre heng
    simp only [perform_ocr, hpre, heng]
    rfl
  · intro hread
    have hpre : preprocess_image_for_ocr env.cv path dk cl bt
        = Except.error (Exc.valueError "Could not read image file.") := by
      unfold preprocess_image_for_ocr
      rw [hread]
    simp only [perform_ocr, hpre]
    rfl

/-- Environment whose engine raises `TesseractNotFoundError`. -/
def ocrEnvNF : OcrEnv :=
  ⟨cvEnvW, fun _ => false, fun _ _ => Except.error Exc.tesseractNotFound, spellEnvNoop⟩

theorem perform_ocr_failure_taxonomy_witness :
    preprocess_image_for_ocr ocrEnvNF.cv "doc.png" true true "Gaussian" = Except.ok condW ∧
      ocrEnvNF.engine condW (buildConfig ocrEnvNF.isdir 3 3 "eng" none)
          = Except.error Exc.tesseractNotFound ∧
      perform_ocr ocrEnvNF "doc.png" "eng" 3 3 none true true "Gaussian" true
          = Except.error OcrFailure.engineNotFoundError :=
  ⟨rfl, rfl,
    ((perform_ocr_failure_taxonomy ocrEnvNF "doc.png" "eng" 3 3 none true true "Gaussian"
        true).1 condW rfl rfl).1⟩

/-- C9: the data-directory override is appended iff `tessdata_dir` is set
(truthy) and names an existing directory, with backslashes normalized to
forward slashes; a non-existent path yields the bare configuration,
silently. -/
theorem tessdata_override (isdir : String → Bool) (oem psm : ℤ) (lang : String) :
    buildConfig isdir oem psm lang none = baseConfig oem psm lang ∧
      (∀ d, d ≠ "" → isdir d = true →
        buildConfig isdir oem psm lang (some d)
          = baseConfig oem psm lang ++ " --tessdata-dir " ++ d.replace "\\" "/") ∧
      (∀ d, isdir d = false →
        buildConfig isdir oem psm lang (some d) = baseConfig oem psm lang) := by
  refine ⟨rfl, ?_, ?_⟩
  · intro d hd hdir
    simp [buildConfig, hd, hdir]
  · intro d hdir
    simp [buildConfig, hdir]

theorem tessdata_override_witness :
    ((fun _ : String => false) "C:\\nodir" = false) ∧
      buildConfig (fun _ => false) 3 3 "eng" (some "C:\\nodir") = baseConfig 3 3 "eng" :=
  ⟨rfl, (tessdata_override (fun _ => false) 3 3 "eng").2.2 "C:\\nodir" rfl⟩

end TesseractGui
